import Mathlib

/-!
Verification of the multi-camera scene-enhancement UI core algorithms:
the point-cloud importance sampler, the voxel outline extractor, the
camera recommendation selection, the camera/subject quality scorer and
frustum visibility test, and the tracking client's reconnection policy.

Numeric model: the JavaScript source computes with IEEE doubles; we embed
the arithmetic over exact numbers (`ℚ` for the executable point-cloud and
recommendation paths, `ℝ` for the trigonometric camera geometry), the
standard real-number abstraction of floating point.  Square-root
comparisons `Math.sqrt d > t` with `t ≥ 0` are embedded as the equivalent
squared comparisons `d > t^2`.
-/

/-- A 3D point (or an RGB color triple), as the source stores groups of
three consecutive floats of a flat array. -/
abbrev Pt : Type := ℚ × ℚ × ℚ

/-- Squared Euclidean distance between two points; the source compares
`Math.sqrt` of this against a threshold, which we embed squared. -/
def distSq (p q : Pt) : ℚ :=
  (p.1 - q.1) ^ 2 + (p.2.1 - q.2.1) ^ 2 + (p.2.2 - q.2.2) ^ 2

/-- Worker for `everyKth`: `c` counts down the elements remaining to skip
before the next kept element. -/
def everyKthGo {α : Type} (k : ℕ) : List α → ℕ → List α
  | [], _ => []
  | x :: rest, 0 => x :: everyKthGo k rest (k - 1)
  | _ :: rest, c + 1 => everyKthGo k rest c

/-- Every `k`-th element of a list, mirroring the source loops
`for (let i = 0; i < n; i += k)` (kept indices 0, k, 2k, ...). -/
def everyKth {α : Type} (k : ℕ) (l : List α) : List α :=
  everyKthGo k l 0

/-- The importance-sampling walk of `SimplifiedPointCloud`
(`LightweightSceneViewer.js` lines 67-116): walk the points once in order
with index `i`, remembering the last kept point (`lastPoint`) and, when
colors are full-length, the last kept color (`lastColor`); keep a point
when `i % interval == 0` or it is "important" (position delta from the
last kept point above `0.01`, embedded as squared distance `> 1/10000`,
or color delta above `0.1`, embedded as squared distance `> 1/100`).
Returns the kept points and the kept colors. -/
def sampleGo (cols : Option (List Pt)) (total interval : ℕ) :
    List Pt → ℕ → Option Pt → Option Pt → List Pt × List Pt
  | [], _, _, _ => ([], [])
  | p :: rest, i, lastPt, lastCol =>
    let important : Bool :=
      match lastPt with
      | none => false
      | some lp =>
        decide (distSq p lp > 1 / 10000) ||
          (match cols, lastCol with
           | some cs, some lc =>
             (match cs.get? i with
              | some c => decide (distSq c lc > 1 / 100)
              | none => false)
           | _, _ => false)
    if i % interval = 0 ∨ important = true then
      match
        match cols with
        | some cs => if total ≤ cs.length then some (cs.getD i (0, 0, 0)) else none
        | none => none
      with
      | some c =>
        match sampleGo cols total interval rest (i + 1) (some p) (some c) with
        | (ps, csOut) => (p :: ps, c :: csOut)
      | none =>
        match sampleGo cols total interval rest (i + 1) (some p) lastCol with
        | (ps, csOut) => (p :: ps, csOut)
    else
      sampleGo cols total interval rest (i + 1) lastPt lastCol

/-- The sampling interval of the first pass (`LightweightSceneViewer.js`
lines 50-56): base interval `max(1, floor(1/density))`, raised to
`ceil(totalPoints/maxPoints)` when `totalPoints/interval > maxPoints`. -/
def sampleInterval (total : ℕ) (density : ℚ) (maxPoints : ℕ) : ℕ :=
  let interval := max 1 (⌊1 / density⌋.toNat)
  if (total : ℚ) / interval > maxPoints then ⌈(total : ℚ) / maxPoints⌉.toNat
  else interval

/-- The full point-cloud sampler of `SimplifiedPointCloud`
(`LightweightSceneViewer.js` lines 48-145): the importance-sampling first
pass, then, when the kept count still exceeds `maxPoints`, a second
uniform resampling pass with stride `ceil(kept/maxPoints)`.  Colors are
returned only when some were kept (the source returns `null` otherwise). -/
def simplifiedPointCloudSample (pts : List Pt) (cols : Option (List Pt))
    (density : ℚ) (maxPoints : ℕ) : List Pt × Option (List Pt) :=
  match sampleGo cols pts.length (sampleInterval pts.length density maxPoints) pts 0 none none with
  | (kept, keptCols) =>
    if kept.length > maxPoints then
      (everyKth (⌈(kept.length : ℚ) / maxPoints⌉.toNat) kept,
       if keptCols.length > 0 then
         some (everyKth (⌈(kept.length : ℚ) / maxPoints⌉.toNat) keptCols)
       else none)
    else
      (kept, if keptCols.length > 0 then some keptCols else none)

/-- Length of the `everyKth` worker: counting down from skip counter `c`,
the kept count over a list of length `n` is `(n + (k-1) - c) / k`. -/
theorem everyKthGo_length {α : Type} (k : ℕ) (hk : 0 < k) :
    ∀ (l : List α) (c : ℕ), c ≤ k - 1 →
      (everyKthGo k l c).length = (l.length + (k - 1) - c) / k := by
  intro l
  induction l with
  | nil =>
    intro c hc
    simp only [everyKthGo, List.length_nil, Nat.zero_add]
    exact (Nat.div_eq_of_lt (by omega)).symm
  | cons x rest ih =>
    intro c hc
    match c with
    | 0 =>
      simp only [everyKthGo, List.length_cons, ih (k - 1) le_rfl, Nat.sub_zero]
      have h1 : rest.length + (k - 1) - (k - 1) = rest.length := by omega
      have h2 : rest.length + 1 + (k - 1) = rest.length + k := by omega
      rw [h1, h2, Nat.add_div_right _ hk]
    | c + 1 =>
      simp only [everyKthGo, List.length_cons, ih c (by omega)]
      congr 1
      omega

/-- Length of `everyKth k l` for positive stride `k`. -/
theorem everyKth_length {α : Type} (k : ℕ) (hk : 0 < k) (l : List α) :
    (everyKth k l).length = (l.length + (k - 1)) / k := by
  simpa using everyKthGo_length k hk l 0 (Nat.zero_le _)

/-- The rational `Math.ceil(a / b)` of two naturals, converted back to a
natural, is the natural-number ceiling division `(a + b - 1) / b`. -/
theorem ratCeilDiv_toNat (a b : ℕ) (hb : 0 < b) :
    (⌈(a : ℚ) / (b : ℚ)⌉).toNat = (a + b - 1) / b := by
  rcases Nat.eq_zero_or_pos a with ha | ha
  · subst ha
    simp only [Nat.cast_zero, zero_div, Int.ceil_zero, Int.toNat_zero, Nat.zero_add]
    exact (Nat.div_eq_of_lt (by omega)).symm
  · have hbq : (0 : ℚ) < (b : ℚ) := by exact_mod_cast hb
    have hdm := Nat.div_add_mod (a + b - 1) b
    have hmlt := Nat.mod_lt (a + b - 1) hb
    have hge : a ≤ b * ((a + b - 1) / b) := by omega
    have hlt : b * ((a + b - 1) / b) < a + b := by omega
    have hgeQ : (a : ℚ) ≤ (b : ℚ) * (((a + b - 1) / b : ℕ) : ℚ) := by exact_mod_cast hge
    have hltQ : (b : ℚ) * (((a + b - 1) / b : ℕ) : ℚ) < (a : ℚ) + (b : ℚ) := by
      exact_mod_cast hlt
    have hq : ⌈(a : ℚ) / (b : ℚ)⌉ = ((a + b - 1) / b : ℕ) := by
      rw [Int.ceil_eq_iff]
      simp only [Int.cast_natCast]
      constructor
      · rw [lt_div_iff₀ hbq]
        nlinarith
      · rw [div_le_iff₀ hbq]
        nlinarith
    rw [hq, Int.toNat_natCast]

/-- A `sampleGo` walk started at index 0 with a nonempty point list keeps
at least the first point, because `0 % interval = 0`. -/
theorem sampleGo_length_pos (cols : Option (List Pt)) (total interval : ℕ)
    (p : Pt) (rest : List Pt) :
    0 < (sampleGo cols total interval (p :: rest) 0 none none).1.length := by
  simp only [sampleGo, Nat.zero_mod, eq_self_iff_true, true_or, if_true]
  rcases hc :
      (match cols with
        | some cs => if total ≤ cs.length then some (cs.getD 0 (0, 0, 0)) else none
        | none => (none : Option Pt)) with _ | c
  · simp only [hc]
    rcases hs : sampleGo cols total interval rest 1 (some p) none with ⟨ps, csOut⟩
    simp [hs]
  · simp only [hc]
    rcases hs : sampleGo cols total interval rest 1 (some p) (some c) with ⟨ps, csOut⟩
    simp [hs]

/-- The second-pass cap arithmetic: when the kept count `n` exceeds the cap
`m ≥ 1` and the resample stride is the ceiling `(n + m - 1) / m`, the
resampled count `ceil(n / stride)` is at most `m`. -/
theorem ceil_resample_le (n m : ℕ) (hm : 0 < m) (hnm : m < n) :
    (n + ((n + m - 1) / m - 1)) / ((n + m - 1) / m) ≤ m := by
  have hr1 : 0 < (n + m - 1) / m := by
    refine Nat.le_div_iff_mul_le hm |>.mpr (by omega)
  have hdm := Nat.div_add_mod (n + m - 1) m
  have hmlt := Nat.mod_lt (n + m - 1) hm
  have hle : n ≤ m * ((n + m - 1) / m) := by omega
  rw [Nat.div_le_iff_le_mul_add_pred hr1]
  have hcomm : (n + m - 1) / m * m = m * ((n + m - 1) / m) := Nat.mul_comm _ _
  omega

/-- The claim C1, sampler output bounds: for any input point cloud, color
array and density, and any positive cap `maxPoints`, the sampled point
sequence has length at most `maxPoints`, and it is nonempty whenever the
input is nonempty. -/
theorem sampler_length_le_maxPoints (pts : List Pt) (cols : Option (List Pt))
    (density : ℚ) (m : ℕ) (hm : 1 ≤ m) :
    (simplifiedPointCloudSample pts cols density m).1.length ≤ m ∧
      (pts ≠ [] → 0 < (simplifiedPointCloudSample pts cols density m).1.length) := by
  unfold simplifiedPointCloudSample
  rcases hsg : sampleGo cols pts.length (sampleInterval pts.length density m) pts 0 none none
    with ⟨kept, keptCols⟩
  simp only
  by_cases hlen : kept.length > m
  · rw [if_pos hlen]
    have hr : (⌈(kept.length : ℚ) / (m : ℚ)⌉).toNat = (kept.length + m - 1) / m :=
      ratCeilDiv_toNat kept.length m (by omega)
    have hrpos : 0 < (kept.length + m - 1) / m := by
      have : m ≤ kept.length + m - 1 := by omega
      exact Nat.le_div_iff_mul_le (by omega) |>.mpr (by omega)
    constructor
    · simp only [hr, everyKth_length _ hrpos]
      exact ceil_resample_le kept.length m (by omega) hlen
    · intro _
      simp only [hr, everyKth_length _ hrpos]
      exact Nat.le_div_iff_mul_le hrpos |>.mpr (by omega)
  · rw [if_neg hlen]
    refine ⟨by simpa using Nat.le_of_not_lt hlen, ?_⟩
    intro hne
    obtain ⟨p, rest, rfl⟩ : ∃ p rest, pts = p :: rest := by
      cases pts with
      | nil => exact absurd rfl hne
      | cons a b => exact ⟨a, b, rfl⟩
    have hpos := sampleGo_length_pos cols (p :: rest).length
      (sampleInterval (p :: rest).length density m) p rest
    rw [hsg] at hpos
    simpa using hpos

/-- Witness for C1 at a concrete input: three collinear points, density
one half, cap 1. -/
theorem sampler_length_le_maxPoints_witness :
    (simplifiedPointCloudSample [(0, 0, 0), (1, 0, 0), (2, 0, 0)] none (1 / 2) 1).1.length ≤ 1 ∧
      0 < (simplifiedPointCloudSample [(0, 0, 0), (1, 0, 0), (2, 0, 0)] none (1 / 2) 1).1.length := by
  have h := sampler_length_le_maxPoints [(0, 0, 0), (1, 0, 0), (2, 0, 0)] none (1 / 2) 1 le_rfl
  exact ⟨h.1, h.2 (by simp)⟩


/-- The claim C8, sampler determinism: the sampling path contains no
randomness, so two runs on identical point array, color array, density and
cap produce identical point and color output sequences. -/
theorem sampler_deterministic (pts₁ pts₂ : List Pt) (cols₁ cols₂ : Option (List Pt))
    (d₁ d₂ : ℚ) (m₁ m₂ : ℕ) (hp : pts₁ = pts₂) (hc : cols₁ = cols₂)
    (hd : d₁ = d₂) (hm : m₁ = m₂) :
    simplifiedPointCloudSample pts₁ cols₁ d₁ m₁ = simplifiedPointCloudSample pts₂ cols₂ d₂ m₂ := by
  rw [hp, hc, hd, hm]

/-- Witness for C8: two runs on the identical concrete input coincide. -/
theorem sampler_deterministic_witness :
    simplifiedPointCloudSample [(0, 0, 0), (1, 0, 0)] none (1 / 10) 4 =
      simplifiedPointCloudSample [(0, 0, 0), (1, 0, 0)] none (1 / 10) 4 :=
  sampler_deterministic [(0, 0, 0), (1, 0, 0)] [(0, 0, 0), (1, 0, 0)] none none
    (1 / 10) (1 / 10) 4 4 rfl rfl rfl rfl

/-- The stride of the first pass, written as the specification states it:
base stride `max(1, floor(1/density))`, raised to `ceil(total/maxPoints)`
whenever `total/stride > maxPoints`. -/
def specStride (total : ℕ) (density : ℚ) (maxPoints : ℕ) : ℕ :=
  let base := max 1 (⌊1 / density⌋.toNat)
  if (total : ℚ) / base > maxPoints then ⌈(total : ℚ) / maxPoints⌉.toNat else base

/-- The keep predicate of the first pass, written as the specification
states it: keep index `i` exactly when `i % stride = 0`, or the positional
delta from the last kept point exceeds the positional threshold `0.01`
(squared form `1/10000`), or the color delta from the last kept point's
color exceeds the color threshold `0.1` (squared form `1/100`). -/
def specKeep (stride i : ℕ) (lastPt lastCol : Option Pt) (p : Pt) (c : Option Pt) : Bool :=
  decide (i % stride = 0) ||
    (match lastPt with
     | none => false
     | some lp =>
       decide (distSq p lp > 1 / 10000) ||
         (match lastCol, c with
          | some lc, some cc => decide (distSq cc lc > 1 / 100)
          | _, _ => false))

/-- The first pass written as the specification states it: a single walk
in original order driven by `specKeep`, remembering the last kept point
and (for full-length parallel color arrays) the last kept color. -/
def specWalk (cols : Option (List Pt)) (total stride : ℕ) :
    List Pt → ℕ → Option Pt → Option Pt → List Pt × List Pt
  | [], _, _, _ => ([], [])
  | p :: rest, i, lastPt, lastCol =>
    if specKeep stride i lastPt lastCol p
        (match cols with | some cs => cs.get? i | none => none) then
      match
        match cols with
        | some cs => if total ≤ cs.length then some (cs.getD i (0, 0, 0)) else none
        | none => none
      with
      | some c =>
        match specWalk cols total stride rest (i + 1) (some p) (some c) with
        | (ps, csOut) => (p :: ps, c :: csOut)
      | none =>
        match specWalk cols total stride rest (i + 1) (some p) lastCol with
        | (ps, csOut) => (p :: ps, csOut)
    else
      specWalk cols total stride rest (i + 1) lastPt lastCol

/-- The source keep condition of `sampleGo` agrees with the specification
predicate `specKeep` at every state. -/
theorem sampleGo_eq_specWalk (cols : Option (List Pt)) (total stride : ℕ) :
    ∀ (pts : List Pt) (i : ℕ) (lastPt lastCol : Option Pt),
      sampleGo cols total stride pts i lastPt lastCol =
        specWalk cols total stride pts i lastPt lastCol := by
  intro pts
  induction pts with
  | nil => intro i lastPt lastCol; rfl
  | cons p rest ih =>
    intro i lastPt lastCol
    simp only [sampleGo, specWalk, ih]
    refine if_congr ?_ rfl rfl
    rcases lastPt with _ | lp
    · simp [specKeep]
    · rcases cols with _ | cs
      · simp [specKeep]
      · rcases lastCol with _ | lc
        · simp [specKeep]
        · rcases hg : cs[i]? with _ | cc
          · simp [specKeep, hg]
          · simp [specKeep, hg]

/-- The claim C5, first-pass characterization: the first pass of the
sampler uses the stride the specification states, and walking the points
once in original order keeps exactly the points selected by the
specification's keep predicate (stride hit, positional importance, or
color importance relative to the last kept point). -/
theorem firstPass_matches_spec (pts : List Pt) (cols : Option (List Pt))
    (density : ℚ) (m : ℕ) :
    sampleInterval pts.length density m = specStride pts.length density m ∧
      sampleGo cols pts.length (sampleInterval pts.length density m) pts 0 none none =
        specWalk cols pts.length (specStride pts.length density m) pts 0 none none := by
  refine ⟨rfl, ?_⟩
  rw [sampleGo_eq_specWalk]
  rfl

/-- The voxel cell size of `PointCloudOutlines`
(`LightweightSceneViewer.js` line 457). -/
def voxelSize : ℚ := 1 / 10

/-- A grid key, the integer voxel coordinates `(vx, vy, vz)` that the
source turns into the string key `"vx,vy,vz"`. -/
abbrev VoxelKey : Type := ℤ × ℤ × ℤ

/-- A voxel of the outline extractor's grid: key, the representative
point (the first point that created the voxel), and an occupancy count. -/
structure Voxel where
  key : VoxelKey
  x : ℚ
  y : ℚ
  z : ℚ
  count : ℕ
deriving DecidableEq

/-- The voxel coordinates of a point: `Math.floor(coordinate / voxelSize)`
in each axis (`LightweightSceneViewer.js` lines 465-467). -/
def voxelKeyOf (p : Pt) : VoxelKey :=
  (⌊p.1 / voxelSize⌋, ⌊p.2.1 / voxelSize⌋, ⌊p.2.2 / voxelSize⌋)

/-- Insert one point into the voxel grid: create the voxel with the point
as representative if the key is new, otherwise only bump the count
(`LightweightSceneViewer.js` lines 470-479).  The grid is an association
list in insertion order, matching `Object.keys` iteration order for the
source's comma-separated string keys. -/
def insertVoxel (grid : List Voxel) (p : Pt) : List Voxel :=
  if (grid.find? (fun v => decide (v.key = voxelKeyOf p))).isSome then
    grid.map (fun v => if v.key = voxelKeyOf p then { v with count := v.count + 1 } else v)
  else
    grid ++ [⟨voxelKeyOf p, p.1, p.2.1, p.2.2, 1⟩]

/-- Fold of `insertVoxel` over the input points. -/
def buildVoxelGridGo (grid : List Voxel) : List Pt → List Voxel
  | [] => grid
  | p :: rest => buildVoxelGridGo (insertVoxel grid p) rest

/-- The voxel grid of an input point cloud. -/
def buildVoxelGrid (pts : List Pt) : List Voxel :=
  buildVoxelGridGo [] pts

/-- The six axis-aligned neighbor directions
(`LightweightSceneViewer.js` lines 484-488). -/
def neighborDirs : List VoxelKey :=
  [(1, 0, 0), (-1, 0, 0), (0, 1, 0), (0, -1, 0), (0, 0, 1), (0, 0, -1)]

/-- Whether the grid holds a voxel with the given key. -/
def hasVoxel (grid : List Voxel) (k : VoxelKey) : Bool :=
  (grid.find? (fun v => decide (v.key = k))).isSome

/-- The number of unoccupied axis-aligned neighbors of a voxel. -/
def emptyNeighborCount (grid : List Voxel) (v : Voxel) : ℕ :=
  neighborDirs.countP (fun d =>
    !hasVoxel grid (v.key.1 + d.1, v.key.2.1 + d.2.1, v.key.2.2 + d.2.2))

/-- The edge voxels: voxels with at least one unoccupied neighbor, in grid
order (`LightweightSceneViewer.js` lines 493-509). -/
def edgeVoxels (grid : List Voxel) : List Voxel :=
  grid.filter (fun v => decide (0 < emptyNeighborCount grid v))

/-- The uniform subsampling of the edge voxels
(`LightweightSceneViewer.js` lines 518-526): intended cap
`min(length, 5000)`, stride `max(1, floor(length / cap))`.  (For an empty
list the source loop body never runs; the model's `max 1 _` stride yields
the same empty output.) -/
def sampledEdgeVoxels (pts : List Pt) : List Voxel :=
  let evs := edgeVoxels (buildVoxelGrid pts)
  everyKth (max 1 (evs.length / min evs.length 5000)) evs

/-- One coordinate of the `toFixed(3)` dedup key of the stitching loop:
rounding to the nearest thousandth, ties toward positive infinity, as
`Number.prototype.toFixed` rounds in the real-number model. -/
def fixedCoord (x : ℚ) : ℤ :=
  ⌊1000 * x + 1 / 2⌋

/-- The `"x.toFixed(3),y.toFixed(3),z.toFixed(3)"` key of a stitched
point (`LightweightSceneViewer.js` lines 531, 544, 566). -/
def fixedKey (p : Pt) : VoxelKey :=
  (fixedCoord p.1, fixedCoord p.2.1, fixedCoord p.2.2)

/-- The squared-distance threshold of the stitching loop,
`voxelSize * voxelSize * 4` (`LightweightSceneViewer.js` line 553). -/
def distThresholdSq : ℚ :=
  voxelSize * voxelSize * 4

/-- The inner nearest-neighbor scan (`LightweightSceneViewer.js` lines
537-557): walk all sampled edge points with index `j`, skipping the
current index and already-processed keys, tracking the best candidate as
`(index, point, squared distance)`; a candidate replaces the best when it
is strictly closer and under the threshold (an empty best acts as the
source's `minDist = Infinity`).  The candidate point is carried alongside
its index, which the source recovers as `sampledEdges[nearestIdx]`. -/
def findNearestGo (current : Pt) (iCur : ℕ) (processed : List VoxelKey) :
    List Pt → ℕ → Option (ℕ × Pt × ℚ) → Option (ℕ × Pt × ℚ)
  | [], _, best => best
  | other :: rest, j, best =>
    findNearestGo current iCur processed rest (j + 1)
      (if j = iCur then best
       else if fixedKey other ∈ processed then best
       else
         match best with
         | none =>
           if distSq current other < distThresholdSq then
             some (j, other, distSq current other)
           else none
         | some (bj, bp, bd) =>
           if distSq current other < bd ∧ distSq current other < distThresholdSq then
             some (j, other, distSq current other)
           else some (bj, bp, bd))

/-- The nearest unprocessed neighbor of the current point among the
sampled edge points, if any lies under the distance threshold. -/
def findNearest (current : Pt) (edges : List Pt) (iCur : ℕ)
    (processed : List VoxelKey) : Option (ℕ × Pt × ℚ) :=
  findNearestGo current iCur processed edges 0 none

/-- The greedy stitching loop (`LightweightSceneViewer.js` lines 529-569):
walk the sampled edge points with index `i`; skip a current point whose
key is processed; otherwise mark it, scan for its nearest unprocessed
neighbor, and when one is found emit one segment and mark the neighbor's
key too. -/
def stitchGo (edges : List Pt) :
    List Pt → ℕ → List VoxelKey → List (Pt × Pt) → List (Pt × Pt)
  | [], _, _, acc => acc
  | current :: rest, i, processed, acc =>
    if fixedKey current ∈ processed then
      stitchGo edges rest (i + 1) processed acc
    else
      match findNearest current edges i (fixedKey current :: processed) with
      | none => stitchGo edges rest (i + 1) (fixedKey current :: processed) acc
      | some (_, nearest, _) =>
        stitchGo edges rest (i + 1)
          (fixedKey nearest :: fixedKey current :: processed)
          (acc ++ [(current, nearest)])

/-- The stitched outline segments of a list of sampled edge points. -/
def stitch (edges : List Pt) : List (Pt × Pt) :=
  stitchGo edges edges 0 [] []

/-- The outline extractor end to end: voxelize, detect and subsample edge
voxels, then stitch their representative points into segments. -/
def outlineSegments (pts : List Pt) : List (Pt × Pt) :=
  stitch ((sampledEdgeVoxels pts).map (fun v => (v.x, v.y, v.z)))

/-- What the nearest-neighbor scan guarantees about a returned candidate:
it came from the scanned list, its recorded distance is the squared
distance from the current point, that distance is under the threshold,
and its key was unprocessed. -/
theorem findNearestGo_spec (current : Pt) (iCur : ℕ) (processed : List VoxelKey) :
    ∀ (rem : List Pt) (j : ℕ) (best : Option (ℕ × Pt × ℚ)) (rj : ℕ) (rp : Pt) (rd : ℚ),
      findNearestGo current iCur processed rem j best = some (rj, rp, rd) →
      best = some (rj, rp, rd) ∨
        (rp ∈ rem ∧ rd = distSq current rp ∧ rd < distThresholdSq ∧
          fixedKey rp ∉ processed) := by
  intro rem
  induction rem with
  | nil =>
    intro j best rj rp rd h
    exact Or.inl h
  | cons other rest ih =>
    intro j best rj rp rd h
    simp only [findNearestGo] at h
    rcases ih (j + 1) _ rj rp rd h with hbest | hmem
    · by_cases hj : j = iCur
      · rw [if_pos hj] at hbest
        exact Or.inl hbest
      · rw [if_neg hj] at hbest
        by_cases hk : fixedKey other ∈ processed
        · rw [if_pos hk] at hbest
          exact Or.inl hbest
        · rw [if_neg hk] at hbest
          rcases best with _ | ⟨bj, bp, bd⟩
          · simp only at hbest
            by_cases hd : distSq current other < distThresholdSq
            · rw [if_pos hd] at hbest
              have h2 : rp = other := congrArg (·.2.1) (Option.some.inj hbest).symm
              have h3 : rd = distSq current other := congrArg (·.2.2) (Option.some.inj hbest).symm
              refine Or.inr ⟨h2 ▸ List.mem_cons_self other rest, ?_, ?_, ?_⟩
              · rw [h3, h2]
              · rw [h3]; exact hd
              · rw [h2]; exact hk
            · rw [if_neg hd] at hbest
              exact absurd hbest (by simp)
          · simp only at hbest
            by_cases hd : distSq current other < bd ∧ distSq current other < distThresholdSq
            · rw [if_pos hd] at hbest
              have h1 : rj = j := congrArg (·.1) (Option.some.inj hbest).symm
              have h2 : rp = other := congrArg (·.2.1) (Option.some.inj hbest).symm
              have h3 : rd = distSq current other := congrArg (·.2.2) (Option.some.inj hbest).symm
              refine Or.inr ⟨h2 ▸ List.mem_cons_self other rest, ?_, ?_, ?_⟩
              · rw [h3, h2]
              · rw [h3]; exact hd.2
              · rw [h2]; exact hk
            · rw [if_neg hd] at hbest
              exact Or.inl hbest
    · exact Or.inr ⟨List.mem_cons_of_mem other hmem.1, hmem.2⟩

/-- Every segment produced by the stitching loop either was already in
the accumulator or joins a point of the walked list to a point of the
scanned edge list at squared distance under the threshold. -/
theorem stitchGo_spec (edges : List Pt) :
    ∀ (rem : List Pt) (i : ℕ) (processed : List VoxelKey) (acc : List (Pt × Pt)),
      rem ⊆ edges →
      (∀ s ∈ acc, s.1 ∈ edges ∧ s.2 ∈ edges ∧ distSq s.1 s.2 < distThresholdSq) →
      ∀ s ∈ stitchGo edges rem i processed acc,
        s.1 ∈ edges ∧ s.2 ∈ edges ∧ distSq s.1 s.2 < distThresholdSq := by
  intro rem
  induction rem with
  | nil =>
    intro i processed acc _ hacc s hs
    exact hacc s hs
  | cons current rest ih =>
    intro i processed acc hsub hacc s hs
    have hsub' : rest ⊆ edges := fun x hx => hsub (List.mem_cons_of_mem _ hx)
    rw [stitchGo] at hs
    by_cases hk : fixedKey current ∈ processed
    · rw [if_pos hk] at hs
      exact ih (i + 1) processed acc hsub' hacc s hs
    · rw [if_neg hk] at hs
      rcases hfn : findNearest current edges i (fixedKey current :: processed)
        with _ | ⟨j, nearest, d⟩
      · rw [hfn] at hs
        exact ih (i + 1) _ acc hsub' hacc s hs
      · rw [hfn] at hs
        refine ih (i + 1) _ _ hsub' ?_ s hs
        intro s' hs'
        rcases List.mem_append.mp hs' with hold | hnew
        · exact hacc s' hold
        · rcases List.mem_singleton.mp hnew with rfl
          have hcur : current ∈ edges := hsub (List.mem_cons_self _ _)
          rcases findNearestGo_spec current i (fixedKey current :: processed)
              edges 0 none j nearest d hfn with hnone | hprops
          · exact absurd hnone (by simp)
          · exact ⟨hcur, hprops.1, by rw [← hprops.2.1]; exact hprops.2.2.1⟩

/-- The claim C7, outline segment distance bound: every segment emitted by
the outline extractor joins two sampled edge-voxel representative points
whose squared Euclidean distance is under `4 * cellSize^2` (with
`cellSize = 0.1`); no segment joins points farther apart. -/
theorem outlineSegments_within_threshold (pts : List Pt) (s : Pt × Pt)
    (hs : s ∈ outlineSegments pts) :
    s.1 ∈ (sampledEdgeVoxels pts).map (fun v => (v.x, v.y, v.z)) ∧
      s.2 ∈ (sampledEdgeVoxels pts).map (fun v => (v.x, v.y, v.z)) ∧
      distSq s.1 s.2 < voxelSize * voxelSize * 4 := by
  unfold outlineSegments stitch at hs
  have h := stitchGo_spec ((sampledEdgeVoxels pts).map (fun v => (v.x, v.y, v.z)))
    ((sampledEdgeVoxels pts).map (fun v => (v.x, v.y, v.z))) 0 [] []
    (fun _ hx => hx) (fun _ h => absurd h (List.not_mem_nil _)) s hs
  simpa [distThresholdSq] using h

set_option maxHeartbeats 1000000 in
/-- Witness for C7 at a concrete input: two points one and a half cells
apart produce exactly one segment, and the theorem bounds its length. -/
theorem outlineSegments_within_threshold_witness :
    ((0, 0, 0), ((3 : ℚ) / 20, 0, 0)) ∈ outlineSegments [(0, 0, 0), (3 / 20, 0, 0)] ∧
      distSq (0, 0, 0) ((3 : ℚ) / 20, 0, 0) < voxelSize * voxelSize * 4 := by
  have hmem : ((0, 0, 0), ((3 : ℚ) / 20, 0, 0)) ∈ outlineSegments [(0, 0, 0), (3 / 20, 0, 0)] := by
    norm_num [outlineSegments, sampledEdgeVoxels, buildVoxelGrid, buildVoxelGridGo,
      insertVoxel, voxelKeyOf, voxelSize, edgeVoxels, emptyNeighborCount, hasVoxel,
      neighborDirs, everyKth, everyKthGo, stitch, stitchGo, findNearest, findNearestGo,
      fixedKey, fixedCoord, distSq, distThresholdSq, List.find?, List.filter, List.countP]
  exact ⟨hmem,
    (outlineSegments_within_threshold [(0, 0, 0), (3 / 20, 0, 0)] _ hmem).2.2⟩

/-- The dedup keys of all segment endpoints, in emission order. -/
def segKeys : List (Pt × Pt) → List VoxelKey
  | [] => []
  | s :: rest => fixedKey s.1 :: fixedKey s.2 :: segKeys rest

/-- `segKeys` distributes over appending one segment. -/
theorem segKeys_append_single :
    ∀ (acc : List (Pt × Pt)) (p q : Pt),
      segKeys (acc ++ [(p, q)]) = segKeys acc ++ [fixedKey p, fixedKey q] := by
  intro acc p q
  induction acc with
  | nil => rfl
  | cons s rest ih => simp [segKeys, ih]

/-- Both endpoint keys of a member segment occur in `segKeys`. -/
theorem fixedKey_mem_segKeys :
    ∀ (acc : List (Pt × Pt)) (s : Pt × Pt), s ∈ acc →
      fixedKey s.1 ∈ segKeys acc ∧ fixedKey s.2 ∈ segKeys acc := by
  intro acc
  induction acc with
  | nil => intro s hs; exact absurd hs (List.not_mem_nil s)
  | cons a rest ih =>
    intro s hs
    rcases List.mem_cons.mp hs with rfl | hmem
    · exact ⟨List.mem_cons_self _ _, List.mem_cons_of_mem _ (List.mem_cons_self _ _)⟩
    · have h := ih s hmem
      exact ⟨List.mem_cons_of_mem _ (List.mem_cons_of_mem _ h.1),
        List.mem_cons_of_mem _ (List.mem_cons_of_mem _ h.2)⟩

/-- When all endpoint keys are distinct, any point is an endpoint of at
most one segment of the list. -/
theorem countP_endpoint_le_one :
    ∀ (acc : List (Pt × Pt)), (segKeys acc).Nodup →
      ∀ v : Pt, acc.countP (fun s => decide (s.1 = v) || decide (s.2 = v)) ≤ 1 := by
  intro acc
  induction acc with
  | nil => intro _ v; simp [List.countP_nil]
  | cons a rest ih =>
    intro hnd v
    have hnd1 : fixedKey a.1 ∉ fixedKey a.2 :: segKeys rest := (List.nodup_cons.mp hnd).1
    have hnd2 : fixedKey a.2 ∉ segKeys rest :=
      (List.nodup_cons.mp (List.nodup_cons.mp hnd).2).1
    have hndrest : (segKeys rest).Nodup :=
      (List.nodup_cons.mp (List.nodup_cons.mp hnd).2).2
    rw [List.countP_cons]
    by_cases hp : (decide (a.1 = v) || decide (a.2 = v)) = true
    · have hzero : rest.countP (fun s => decide (s.1 = v) || decide (s.2 = v)) = 0 := by
        rw [List.countP_eq_zero]
        intro s hs hpred
        have hkv : fixedKey v ∈ segKeys rest := by
          rcases Bool.or_eq_true _ _ |>.mp hpred with h1 | h1
          · exact (of_decide_eq_true h1) ▸ (fixedKey_mem_segKeys rest s hs).1
          · exact (of_decide_eq_true h1) ▸ (fixedKey_mem_segKeys rest s hs).2
        rcases Bool.or_eq_true _ _ |>.mp hp with h2 | h2
        · exact hnd1 ((of_decide_eq_true h2) ▸ List.mem_cons_of_mem _ hkv)
        · exact hnd2 ((of_decide_eq_true h2) ▸ hkv)
      simp [hp, hzero]
    · rw [Bool.not_eq_true] at hp
      have := ih hndrest v
      simp only [hp]
      simpa using this

/-- The stitching loop preserves distinctness of all emitted endpoint
keys: every emitted key is recorded in `processed`, a current point is
only used while its key is unprocessed, and a chosen neighbor's key is
unprocessed even after the current key is recorded. -/
theorem stitchGo_segKeys_nodup (edges : List Pt) :
    ∀ (rem : List Pt) (i : ℕ) (processed : List VoxelKey) (acc : List (Pt × Pt)),
      (∀ k ∈ segKeys acc, k ∈ processed) → (segKeys acc).Nodup →
      (segKeys (stitchGo edges rem i processed acc)).Nodup := by
  intro rem
  induction rem with
  | nil => intro i processed acc _ hnd; exact hnd
  | cons current rest ih =>
    intro i processed acc hsub hnd
    rw [stitchGo]
    by_cases hk : fixedKey current ∈ processed
    · rw [if_pos hk]
      exact ih (i + 1) processed acc hsub hnd
    · rw [if_neg hk]
      rcases hfn : findNearest current edges i (fixedKey current :: processed)
        with _ | ⟨j, nearest, d⟩
      · exact ih (i + 1) _ acc
          (fun k hks => List.mem_cons_of_mem _ (hsub k hks)) hnd
      · rcases findNearestGo_spec current i (fixedKey current :: processed)
            edges 0 none j nearest d hfn with hnone | hprops
        · exact absurd hnone (by simp)
        · have hkn : fixedKey nearest ∉ fixedKey current :: processed := hprops.2.2.2
          have hkn1 : fixedKey nearest ≠ fixedKey current := by
            intro h; exact hkn (h ▸ List.mem_cons_self _ _)
          have hkn2 : fixedKey nearest ∉ processed := by
            intro h; exact hkn (List.mem_cons_of_mem _ h)
          refine ih (i + 1) _ _ ?_ ?_
          · intro k hks
            rw [segKeys_append_single] at hks
            rcases List.mem_append.mp hks with hold | hnew
            · exact List.mem_cons_of_mem _ (List.mem_cons_of_mem _ (hsub k hold))
            · rcases List.mem_cons.mp hnew with rfl | h2
              · exact List.mem_cons_of_mem _ (List.mem_cons_self _ _)
              · rcases List.mem_cons.mp h2 with rfl | h3
                · exact List.mem_cons_self _ _
                · exact absurd h3 (List.not_mem_nil _)
          · rw [segKeys_append_single]
            rw [List.nodup_append]
            refine ⟨hnd, ?_, ?_⟩
            · simp [hkn1.symm]
            · intro k hkacc hkpair
              have hkp := hsub k hkacc
              rcases List.mem_cons.mp hkpair with rfl | h2
              · exact hk hkp
              · rcases List.mem_cons.mp h2 with rfl | h3
                · exact hkn2 hkp
                · exact absurd h3 (List.not_mem_nil _)

/-- The claim C10, one segment per voxel: in the outline extractor's
greedy stitch, any point (in particular any sampled edge voxel's
representative) occurs as an endpoint of at most one emitted segment. -/
theorem outlineSegments_endpoint_at_most_once (pts : List Pt) (v : Pt) :
    (outlineSegments pts).countP (fun s => decide (s.1 = v) || decide (s.2 = v)) ≤ 1 := by
  unfold outlineSegments stitch
  refine countP_endpoint_le_one _ ?_ v
  exact stitchGo_segKeys_nodup _ _ 0 [] []
    (fun k hk => absurd hk (List.not_mem_nil k)) List.nodup_nil

/-- A line of `n` integer-spaced points starting at `x = s`: the input
family of the edge-cap violation. -/
def linePts : ℕ → ℕ → List Pt
  | _, 0 => []
  | s, n + 1 => ((s : ℚ), 0, 0) :: linePts (s + 1) n

/-- The voxel that the point `(s, 0, 0)` creates: integer coordinates
`(10 s, 0, 0)` at cell size `0.1`, representative the point itself. -/
def lineVoxel (s : ℕ) : Voxel :=
  ⟨((10 * s : ℤ), 0, 0), (s : ℚ), 0, 0, 1⟩

/-- The voxels of a line of integer-spaced points, in insertion order. -/
def lineVoxels : ℕ → ℕ → List Voxel
  | _, 0 => []
  | s, n + 1 => lineVoxel s :: lineVoxels (s + 1) n

/-- The grid key of an integer-spaced line point. -/
theorem voxelKeyOf_line (s : ℕ) :
    voxelKeyOf ((s : ℚ), 0, 0) = ((10 * s : ℤ), 0, 0) := by
  unfold voxelKeyOf voxelSize
  have h1 : (s : ℚ) / (1 / 10) = ((10 * s : ℕ) : ℚ) := by push_cast; ring
  have h2 : (0 : ℚ) / (1 / 10) = 0 := by norm_num
  rw [h1, h2, Int.floor_natCast, Int.floor_zero]
  simp

/-- Shape of the members of `lineVoxels`. -/
theorem mem_lineVoxels :
    ∀ (n s : ℕ) (w : Voxel), w ∈ lineVoxels s n →
      ∃ t, s ≤ t ∧ t < s + n ∧ w = lineVoxel t := by
  intro n
  induction n with
  | zero => intro s w hw; exact absurd hw (List.not_mem_nil w)
  | succ n ih =>
    intro s w hw
    rcases List.mem_cons.mp hw with rfl | hmem
    · exact ⟨s, le_rfl, by omega, rfl⟩
    · obtain ⟨t, h1, h2, h3⟩ := ih (s + 1) w hmem
      exact ⟨t, by omega, by omega, h3⟩

/-- Length of `lineVoxels`. -/
theorem lineVoxels_length : ∀ (n s : ℕ), (lineVoxels s n).length = n := by
  intro n
  induction n with
  | zero => intro s; rfl
  | succ n ih => intro s; simp [lineVoxels, ih]

/-- Building the grid over an integer-spaced line appends one fresh voxel
per point: all keys are distinct, so no occupancy ever merges. -/
theorem buildVoxelGridGo_line :
    ∀ (n s : ℕ) (acc : List Voxel),
      (∀ w ∈ acc, ∀ t : ℕ, s ≤ t → w.key ≠ ((10 * t : ℤ), 0, 0)) →
      buildVoxelGridGo acc (linePts s n) = acc ++ lineVoxels s n := by
  intro n
  induction n with
  | zero => intro s acc _; simp [linePts, lineVoxels, buildVoxelGridGo]
  | succ n ih =>
    intro s acc hfresh
    have hfind : (acc.find? (fun v =>
        decide (v.key = voxelKeyOf ((s : ℚ), 0, 0)))).isSome = false := by
      have hnone : acc.find? (fun v => decide (v.key = voxelKeyOf ((s : ℚ), 0, 0))) = none := by
        rw [List.find?_eq_none]
        intro w hw
        simp only [decide_eq_true_eq, voxelKeyOf_line]
        exact hfresh w hw s le_rfl
      rw [hnone]
      rfl
    have hins : insertVoxel acc ((s : ℚ), 0, 0) = acc ++ [lineVoxel s] := by
      unfold insertVoxel
      rw [hfind]
      simp only [Bool.false_eq_true, if_false, voxelKeyOf_line]
      rfl
    show buildVoxelGridGo (insertVoxel acc ((s : ℚ), 0, 0)) (linePts (s + 1) n) = _
    rw [hins, ih (s + 1) (acc ++ [lineVoxel s]) ?_, List.append_assoc]
    · rfl
    · intro w hw t ht
      rcases List.mem_append.mp hw with hold | hnew
      · exact hfresh w hold t (by omega)
      · rcases List.mem_singleton.mp hnew with rfl
        intro hkey
        have h10 : (10 * s : ℤ) = (10 * t : ℤ) := congrArg Prod.fst hkey
        omega

/-- No voxel of an integer-spaced line grid occupies a key off the
`(10 t, 0, 0)` lattice points, so `hasVoxel` fails off them. -/
theorem hasVoxel_line_false (N : ℕ) (k : VoxelKey)
    (hk : ∀ t : ℕ, t < N → k ≠ ((10 * t : ℤ), 0, 0)) :
    hasVoxel (lineVoxels 0 N) k = false := by
  unfold hasVoxel
  have hnone : (lineVoxels 0 N).find? (fun v => decide (v.key = k)) = none := by
    rw [List.find?_eq_none]
    intro w hw
    obtain ⟨t, _, ht2, rfl⟩ := mem_lineVoxels N 0 w hw
    simp only [decide_eq_true_eq, lineVoxel]
    intro h
    exact hk t (by omega) h.symm
  rw [hnone]
  rfl

/-- Every voxel of the line grid is an edge voxel: its `+y` neighbor key
is unoccupied. -/
theorem edgeVoxels_line (N : ℕ) :
    edgeVoxels (lineVoxels 0 N) = lineVoxels 0 N := by
  unfold edgeVoxels
  rw [List.filter_eq_self]
  intro v hv
  obtain ⟨t, _, _, rfl⟩ := mem_lineVoxels N 0 v hv
  simp only [decide_eq_true_eq]
  rw [emptyNeighborCount, List.countP_pos_iff]
  refine ⟨(0, 1, 0), by simp [neighborDirs], ?_⟩
  simp only [lineVoxel, Bool.not_eq_true']
  have heq : ((10 * (t : ℤ)) + 0, (0 : ℤ) + 1, (0 : ℤ) + 0) = ((10 * t : ℤ), 1, 0) := by
    norm_num
  rw [heq]
  exact hasVoxel_line_false N _ (fun u _ h => by
    have := congrArg (fun p : VoxelKey => p.2.1) h
    simp at this)

/-- `everyKth` with stride 1 keeps the whole list. -/
theorem everyKth_one {α : Type} (l : List α) : everyKth 1 l = l := by
  unfold everyKth
  induction l with
  | nil => rfl
  | cons x rest ih => simpa [everyKthGo] using ih

/-- The claim C6 fails on the code: a 5001-point integer-spaced line has
5001 edge voxels; the subsampling stride is `max(1, floor(5001/5000)) = 1`,
so all 5001 edge voxels are kept for stitching, exceeding the intended cap
of 5000. -/
theorem sampledEdgeVoxels_cap_violated :
    (sampledEdgeVoxels (linePts 0 5001)).length = 5001 ∧
      ¬ (sampledEdgeVoxels (linePts 0 5001)).length ≤ 5000 := by
  have hgrid : buildVoxelGrid (linePts 0 5001) = lineVoxels 0 5001 := by
    unfold buildVoxelGrid
    have h := buildVoxelGridGo_line 5001 0 []
      (fun w hw => absurd hw (List.not_mem_nil w))
    simpa using h
  have hlen : (sampledEdgeVoxels (linePts 0 5001)).length = 5001 := by
    unfold sampledEdgeVoxels
    simp only [hgrid, edgeVoxels_line, lineVoxels_length]
    have hstep : (1 : ℕ) ⊔ (5001 / (5001 ⊓ 5000)) = 1 := by
      rw [min_eq_right (by norm_num : (5000 : ℕ) ≤ 5001)]
      norm_num
    rw [hstep, everyKth_one, lineVoxels_length]
  exact ⟨hlen, by omega⟩

/-- The two fields of a camera/subject relation record that
`updateRecommendedCamera` reads (`src/unnamed/part_000` lines 904-911
build the full record; the selection only uses these two). -/
structure RelEntry where
  isVisible : Bool
  qualityScore : ℚ

/-- The descending-quality comparator of the recommendation sort
(`src/unnamed/part_000` line 937, `(a, b) => b.qualityScore - a.qualityScore`):
`a` sorts no later than `b` when `b`'s quality does not exceed `a`'s. -/
def qualityGe (a b : String × RelEntry) : Prop :=
  b.2.qualityScore ≤ a.2.qualityScore

instance : DecidableRel qualityGe := fun a b =>
  inferInstanceAs (Decidable (b.2.qualityScore ≤ a.2.qualityScore))

instance : IsTotal (String × RelEntry) qualityGe :=
  ⟨fun a b => le_total b.2.qualityScore a.2.qualityScore⟩

instance : IsTrans (String × RelEntry) qualityGe :=
  ⟨fun _ _ _ h1 h2 => le_trans h2 h1⟩

/-- `updateRecommendedCamera` (`src/unnamed/part_000` lines 927-943): take
the first subject of the relation table, keep its visible cameras, sort
them by descending quality (a stable sort, as ECMAScript `Array.sort`),
and recommend the top camera id.  When the table is empty or the subject
has no visible camera the function returns early, leaving the previous
recommendation `prev` in place. -/
def updateRecommendedCamera (relations : List (String × List (String × RelEntry)))
    (prev : Option String) : Option String :=
  match relations with
  | [] => prev
  | (_, personRelations) :: _ =>
    match List.insertionSort qualityGe
        (personRelations.filter (fun cr => cr.2.isVisible)) with
    | [] => prev
    | top :: _ => some top.1

/-- The claim C2 fails on the code: with zero visible cameras for the
primary subject the function returns early, so the recommendation keeps
its previous value (here a stale camera id) instead of becoming "none". -/
theorem updateRecommendedCamera_stale_counterexample :
    ([("c1", RelEntry.mk false 0)].filter (fun cr => cr.2.isVisible)) = [] ∧
      updateRecommendedCamera [("p1", [("c1", RelEntry.mk false 0)])] (some "c9") =
        some "c9" ∧
      updateRecommendedCamera [("p1", [("c1", RelEntry.mk false 0)])] (some "c9") ≠
        none := by
  refine ⟨rfl, rfl, ?_⟩
  intro h
  exact Option.noConfusion h

/-- The claim C2 as amended: for a nonempty relation table, when the
primary (first) subject has at least one visible camera the
recommendation is a visible camera of that subject with maximal composite
quality score; when it has none, the recommendation keeps its previous
value (initially null) instead of being set to "none". -/
theorem updateRecommendedCamera_amended (pid : String)
    (prels : List (String × RelEntry))
    (rest : List (String × List (String × RelEntry))) (prev : Option String) :
    (prels.filter (fun cr => cr.2.isVisible) = [] →
      updateRecommendedCamera ((pid, prels) :: rest) prev = prev) ∧
    (prels.filter (fun cr => cr.2.isVisible) ≠ [] →
      ∃ cr, cr ∈ prels ∧ cr.2.isVisible = true ∧
        updateRecommendedCamera ((pid, prels) :: rest) prev = some cr.1 ∧
        ∀ other ∈ prels, other.2.isVisible = true →
          other.2.qualityScore ≤ cr.2.qualityScore) := by
  have hperm := List.perm_insertionSort qualityGe
    (prels.filter (fun cr => cr.2.isVisible))
  have hsorted := List.sorted_insertionSort qualityGe
    (prels.filter (fun cr => cr.2.isVisible))
  rcases hs : List.insertionSort qualityGe (prels.filter (fun cr => cr.2.isVisible))
    with _ | ⟨top, tops⟩
  · rw [hs] at hperm
    have hempty : prels.filter (fun cr => cr.2.isVisible) = [] :=
      (List.Perm.nil_eq hperm).symm
    constructor
    · intro _
      show (match List.insertionSort qualityGe
          (prels.filter (fun cr => cr.2.isVisible)) with
        | [] => prev
        | top :: _ => some top.1) = prev
      rw [hs]
    · intro hne
      exact absurd hempty hne
  · rw [hs] at hperm hsorted
    constructor
    · intro hempty
      rw [hempty] at hperm
      exact absurd (List.Perm.eq_nil hperm) (by simp)
    · intro _
      have htopmem : top ∈ prels.filter (fun cr => cr.2.isVisible) :=
        hperm.mem_iff.mp (List.mem_cons_self _ _)
      have htop := List.mem_filter.mp htopmem
      refine ⟨top, htop.1, htop.2, ?_, ?_⟩
      · show (match List.insertionSort qualityGe
            (prels.filter (fun cr => cr.2.isVisible)) with
          | [] => prev
          | top :: _ => some top.1) = some top.1
        rw [hs]
      · intro other hin hvis
        have hofil : other ∈ prels.filter (fun cr => cr.2.isVisible) :=
          List.mem_filter.mpr ⟨hin, hvis⟩
        rcases List.mem_cons.mp (hperm.mem_iff.mpr hofil) with rfl | htail
        · exact le_rfl
        · exact List.rel_of_sorted_cons hsorted other htail

/-- Witness for C2 (amended), zero-visible case at a concrete input: the
previous recommendation survives. -/
theorem updateRecommendedCamera_amended_witness :
    updateRecommendedCamera [("p1", [("c1", RelEntry.mk false 0)])] (some "c9") =
      some "c9" :=
  (updateRecommendedCamera_amended "p1" [("c1", RelEntry.mk false 0)] [] (some "c9")).1 rfl

/-- The retry cap of the tracking client
(`trackingService.js` line 18). -/
def maxRetries : ℕ := 5

/-- The base reconnect delay in milliseconds
(`trackingService.js` line 19). -/
def retryDelay : ℚ := 2000

/-- The connection state the reconnection logic reads and writes. -/
structure TrackingState where
  connected : Bool
  retryCount : ℕ

/-- `_attemptReconnect` (`trackingService.js` lines 81-94): when the retry
count has reached `maxRetries`, do nothing; otherwise increment the count
and schedule a reconnect after `retryDelay * 1.5 ^ (newCount - 1)`
milliseconds.  The returned option is the scheduled delay, `none` when no
reconnect is scheduled. -/
def attemptReconnect (s : TrackingState) : TrackingState × Option ℚ :=
  if s.retryCount ≥ maxRetries then (s, none)
  else ({ s with retryCount := s.retryCount + 1 },
    some (retryDelay * (3 / 2) ^ s.retryCount))

/-- The `onclose` handler (`trackingService.js` lines 57-62): clear the
connected flag, raise the "disconnect" event, then attempt to
reconnect. -/
def handleClose (s : TrackingState) : TrackingState × List String × Option ℚ :=
  match attemptReconnect { s with connected := false } with
  | (s', d) => (s', ["disconnect"], d)

/-- The `onopen` handler (`trackingService.js` lines 38-43): set the
connected flag, reset the retry count, raise the "connect" event. -/
def handleOpen (_ : TrackingState) : TrackingState × List String :=
  (⟨true, 0⟩, ["connect"])

/-- A run of `n` consecutive connection closes without a successful open:
the emitted events and the scheduled reconnect delay of each close. -/
def closeTrace : TrackingState → ℕ → List (List String × Option ℚ)
  | _, 0 => []
  | s, n + 1 =>
    match handleClose s with
    | (s', evs, d) => (evs, d) :: closeTrace s' n

/-- One step of a close run. -/
theorem closeTrace_succ (s : TrackingState) (n : ℕ) :
    closeTrace s (n + 1) =
      ((handleClose s).2.1, (handleClose s).2.2) :: closeTrace (handleClose s).1 n := by
  rw [closeTrace]

/-- Closed form of a close run from retry count `r`: the `j`-th close
raises "disconnect" and schedules a reconnect after
`retryDelay * 1.5 ^ (r + j)` only while `r + j` is under the cap. -/
theorem closeTrace_eq :
    ∀ (n : ℕ) (c : Bool) (r : ℕ),
      closeTrace ⟨c, r⟩ n = (List.range n).map (fun j =>
        (["disconnect"], if r + j < maxRetries then
          some (retryDelay * (3 / 2) ^ (r + j)) else none)) := by
  intro n
  induction n with
  | zero => intro c r; rfl
  | succ n ih =>
    intro c r
    have hcomp : ((fun j => (["disconnect"], if r + j < maxRetries then
        some (retryDelay * (3 / 2) ^ (r + j)) else none)) ∘ Nat.succ) =
        (fun j => (["disconnect"], if (r + 1) + j < maxRetries then
          some (retryDelay * (3 / 2) ^ ((r + 1) + j)) else none)) := by
      funext j
      simp only [Function.comp_apply]
      rw [show r + Nat.succ j = (r + 1) + j from by omega]
    rw [closeTrace_succ, List.range_succ_eq_map, List.map_cons, List.map_map, hcomp]
    by_cases hr : r < maxRetries
    · have hstep : handleClose ⟨c, r⟩ =
          (⟨false, r + 1⟩, ["disconnect"], some (retryDelay * (3 / 2) ^ r)) := by
        simp only [handleClose, attemptReconnect]
        rw [if_neg (by simp only [ge_iff_le]; omega)]
      rw [hstep]
      simp only
      rw [ih false (r + 1)]
      simp [hr]
    · have hstep : handleClose ⟨c, r⟩ = (⟨false, r⟩, ["disconnect"], none) := by
        simp only [handleClose, attemptReconnect]
        rw [if_pos (by simp only [ge_iff_le]; omega)]
      rw [hstep]
      simp only
      rw [ih false r]
      have hall : (fun j => (["disconnect"], if r + j < maxRetries then
          some (retryDelay * (3 / 2) ^ (r + j)) else none)) =
          (fun j => (["disconnect"], if (r + 1) + j < maxRetries then
            some (retryDelay * (3 / 2) ^ ((r + 1) + j)) else (none : Option ℚ))) := by
        funext j
        rw [if_neg (by omega), if_neg (by omega)]
      rw [hall]
      simp [hr]

/-- Count of under-cap indices of an initial range. -/
theorem countP_range_lt (m : ℕ) :
    ∀ n : ℕ, (List.range n).countP (fun j => decide (j < m)) = min n m := by
  intro n
  induction n with
  | zero => simp
  | succ n ih =>
    rw [List.range_succ, List.countP_append, ih]
    by_cases h : n < m
    · simp only [List.countP_cons, List.countP_nil]
      simp [h]
      omega
    · simp only [List.countP_cons, List.countP_nil]
      simp [h]
      omega

/-- The claim C9, bounded reconnection with exponential backoff: over any
run of consecutive closes from a fresh client, each close raises
"disconnect", the `j`-th close (0-based) schedules a reconnect delayed by
`retryDelay * 1.5 ^ j` exactly while `j < maxRetries`, at most
`maxRetries = 5` reconnections are ever scheduled, and a client whose
retry count has reached the cap never schedules another reconnect. -/
theorem reconnect_bounded_backoff (n : ℕ) :
    closeTrace ⟨true, 0⟩ n = (List.range n).map (fun j =>
      (["disconnect"], if j < maxRetries then
        some (retryDelay * (3 / 2) ^ j) else none)) ∧
    (closeTrace ⟨true, 0⟩ n).countP (fun e => e.2.isSome) ≤ maxRetries ∧
    (∀ s : TrackingState, maxRetries ≤ s.retryCount → attemptReconnect s = (s, none)) := by
  have h1 := closeTrace_eq n true 0
  simp only [Nat.zero_add] at h1
  refine ⟨h1, ?_, ?_⟩
  · rw [h1, List.countP_map]
    have hpred : ((fun (e : List String × Option ℚ) => e.2.isSome) ∘ fun j =>
        (["disconnect"], if j < maxRetries then
          some (retryDelay * (3 / 2) ^ j) else none)) =
        fun j => decide (j < maxRetries) := by
      funext j
      by_cases h : j < maxRetries <;> simp [h]
    rw [hpred, countP_range_lt]
    omega
  · intro s hs
    unfold attemptReconnect
    rw [if_pos hs]

/-- Witness for C9: a client at the retry cap schedules nothing. -/
theorem reconnect_bounded_backoff_witness :
    attemptReconnect ⟨false, 5⟩ = (⟨false, 5⟩, none) :=
  (reconnect_bounded_backoff 0).2.2 ⟨false, 5⟩ (by norm_num [maxRetries])

section CameraGeometry

open Classical

/-- A 3D vector of reals (the camera geometry is trigonometric, so it is
modelled over `ℝ`, the real-number abstraction of the doubles). -/
abbrev V3 : Type := ℝ × ℝ × ℝ

/-- Componentwise vector sum. -/
noncomputable def addV (u v : V3) : V3 := (u.1 + v.1, u.2.1 + v.2.1, u.2.2 + v.2.2)

/-- Componentwise vector difference. -/
noncomputable def subV (u v : V3) : V3 := (u.1 - v.1, u.2.1 - v.2.1, u.2.2 - v.2.2)

/-- Dot product. -/
noncomputable def dotV (u v : V3) : ℝ := u.1 * v.1 + u.2.1 * v.2.1 + u.2.2 * v.2.2

/-- Cross product, as `THREE.Vector3.crossVectors`. -/
noncomputable def crossV (u v : V3) : V3 :=
  (u.2.1 * v.2.2 - u.2.2 * v.2.1, u.2.2 * v.1 - u.1 * v.2.2, u.1 * v.2.1 - u.2.1 * v.1)

/-- Squared length. -/
noncomputable def normSqV (v : V3) : ℝ := v.1 ^ 2 + v.2.1 ^ 2 + v.2.2 ^ 2

/-- Length. -/
noncomputable def normV (v : V3) : ℝ := Real.sqrt (normSqV v)

/-- `THREE.Vector3.normalize`: divide by `length() || 1`, so the zero
vector stays zero. -/
noncomputable def jsNormalize (v : V3) : V3 :=
  (v.1 / (if normV v = 0 then 1 else normV v),
   v.2.1 / (if normV v = 0 then 1 else normV v),
   v.2.2 / (if normV v = 0 then 1 else normV v))

/-- A camera of the relation calculation (`src/unnamed/part_000` lines
851-874): position, view direction, field of view in degrees, aspect,
near and far clip distances (the source field `aspectRatio` is shortened
to `aspect` here). -/
structure Camera where
  position : V3
  direction : V3
  fov : ℝ
  aspect : ℝ
  near : ℝ
  far : ℝ

/-- A tracked subject: position and facing direction. -/
structure Person where
  position : V3
  direction : V3

/-- A 4x4 matrix with the `THREE.Matrix4` entry naming `n(row)(column)`. -/
structure Mat4 where
  n11 : ℝ
  n12 : ℝ
  n13 : ℝ
  n14 : ℝ
  n21 : ℝ
  n22 : ℝ
  n23 : ℝ
  n24 : ℝ
  n31 : ℝ
  n32 : ℝ
  n33 : ℝ
  n34 : ℝ
  n41 : ℝ
  n42 : ℝ
  n43 : ℝ
  n44 : ℝ

/-- `THREE.Matrix4.multiplyMatrices`. -/
noncomputable def matMul (a b : Mat4) : Mat4 :=
  ⟨a.n11 * b.n11 + a.n12 * b.n21 + a.n13 * b.n31 + a.n14 * b.n41,
   a.n11 * b.n12 + a.n12 * b.n22 + a.n13 * b.n32 + a.n14 * b.n42,
   a.n11 * b.n13 + a.n12 * b.n23 + a.n13 * b.n33 + a.n14 * b.n43,
   a.n11 * b.n14 + a.n12 * b.n24 + a.n13 * b.n34 + a.n14 * b.n44,
   a.n21 * b.n11 + a.n22 * b.n21 + a.n23 * b.n31 + a.n24 * b.n41,
   a.n21 * b.n12 + a.n22 * b.n22 + a.n23 * b.n32 + a.n24 * b.n42,
   a.n21 * b.n13 + a.n22 * b.n23 + a.n23 * b.n33 + a.n24 * b.n43,
   a.n21 * b.n14 + a.n22 * b.n24 + a.n23 * b.n34 + a.n24 * b.n44,
   a.n31 * b.n11 + a.n32 * b.n21 + a.n33 * b.n31 + a.n34 * b.n41,
   a.n31 * b.n12 + a.n32 * b.n22 + a.n33 * b.n32 + a.n34 * b.n42,
   a.n31 * b.n13 + a.n32 * b.n23 + a.n33 * b.n33 + a.n34 * b.n43,
   a.n31 * b.n14 + a.n32 * b.n24 + a.n33 * b.n34 + a.n34 * b.n44,
   a.n41 * b.n11 + a.n42 * b.n21 + a.n43 * b.n31 + a.n44 * b.n41,
   a.n41 * b.n12 + a.n42 * b.n22 + a.n43 * b.n32 + a.n44 * b.n42,
   a.n41 * b.n13 + a.n42 * b.n23 + a.n43 * b.n33 + a.n44 * b.n43,
   a.n41 * b.n14 + a.n42 * b.n24 + a.n43 * b.n34 + a.n44 * b.n44⟩

/-- `THREE.Matrix4.lookAt(eye, target, up)`: forward axis `z` from eye
minus target (with the degenerate-zero fallback to `(_, _, 1)` and the
0.0001 nudge when `up` is parallel to `z`), then `x = up x z` and
`y = z x x`, all normalized as the source normalizes them. -/
noncomputable def lookAtBasis (eye target up : V3) : V3 × V3 × V3 :=
  let z0 := subV eye target
  let z1 := if normSqV z0 = 0 then (z0.1, z0.2.1, (1 : ℝ)) else z0
  let z2 := jsNormalize z1
  let x0 := crossV up z2
  let z3 := if normSqV x0 = 0 then
      jsNormalize (if |up.2.2| = 1 then (z2.1 + 1 / 10000, z2.2.1, z2.2.2)
        else (z2.1, z2.2.1, z2.2.2 + 1 / 10000))
    else z2
  let x1 := if normSqV x0 = 0 then crossV up z3 else x0
  let x2 := jsNormalize x1
  (x2, crossV z3 x2, z3)

/-- The camera basis after `cam.lookAt(position + direction)` with the
default up vector `(0, 1, 0)`. -/
noncomputable def viewBasis (cam : Camera) : V3 × V3 × V3 :=
  lookAtBasis cam.position (addV cam.position cam.direction) (0, 1, 0)

/-- The world-to-camera matrix built from an orthonormal camera basis and
the eye position: `matrixWorldInverse` of the rigid camera world
transform `[R | e]` is `[R^T | -R^T e]`. -/
noncomputable def viewOf (x y z e : V3) : Mat4 :=
  ⟨x.1, x.2.1, x.2.2, -(dotV x e),
   y.1, y.2.1, y.2.2, -(dotV y e),
   z.1, z.2.1, z.2.2, -(dotV z e),
   0, 0, 0, 1⟩

/-- The camera's `matrixWorldInverse`. -/
noncomputable def viewMatrix (cam : Camera) : Mat4 :=
  viewOf (viewBasis cam).1 (viewBasis cam).2.1 (viewBasis cam).2.2 cam.position

/-- `THREE.Matrix4.makePerspective(left, right, top, bottom, near, far)`
for the WebGL coordinate system. -/
noncomputable def makePerspective (l r t b n f : ℝ) : Mat4 :=
  ⟨2 * n / (r - l), 0, (r + l) / (r - l), 0,
   0, 2 * n / (t - b), (t + b) / (t - b), 0,
   0, 0, -(f + n) / (f - n), -2 * f * n / (f - n),
   0, 0, -1, 0⟩

/-- The frustum bounds of `PerspectiveCamera.updateProjectionMatrix`
(zoom 1, no view offset), parameterized by near, far, aspect and the
tangent of half the vertical field of view. -/
noncomputable def perspParams (n f a t : ℝ) : Mat4 :=
  let top := n * t
  let height := 2 * top
  let width := a * height
  let left := -(0.5 * width)
  makePerspective left (left + width) top (top - height) n f

/-- The camera's `projectionMatrix`:
`top = near * tan(DEG2RAD * 0.5 * fov)`. -/
noncomputable def projectionMat (cam : Camera) : Mat4 :=
  perspParams cam.near cam.far cam.aspect (Real.tan (Real.pi / 180 * (0.5 * cam.fov)))

/-- `projScreenMatrix = projectionMatrix * matrixWorldInverse`
(`src/unnamed/part_000` line 870). -/
noncomputable def projScreen (cam : Camera) : Mat4 :=
  matMul (projectionMat cam) (viewMatrix cam)

/-- A clipping plane `normal . p + constant`. -/
structure Plane3 where
  nx : ℝ
  ny : ℝ
  nz : ℝ
  w : ℝ

/-- `THREE.Plane.normalize`: scale all four components by the inverse
normal length. -/
noncomputable def normalizePlane (p : Plane3) : Plane3 :=
  ⟨p.nx * (1 / Real.sqrt (p.nx ^ 2 + p.ny ^ 2 + p.nz ^ 2)),
   p.ny * (1 / Real.sqrt (p.nx ^ 2 + p.ny ^ 2 + p.nz ^ 2)),
   p.nz * (1 / Real.sqrt (p.nx ^ 2 + p.ny ^ 2 + p.nz ^ 2)),
   p.w * (1 / Real.sqrt (p.nx ^ 2 + p.ny ^ 2 + p.nz ^ 2))⟩

/-- `THREE.Plane.distanceToPoint`. -/
noncomputable def planeDistance (pl : Plane3) (v : V3) : ℝ :=
  pl.nx * v.1 + pl.ny * v.2.1 + pl.nz * v.2.2 + pl.w

/-- `THREE.Frustum.setFromProjectionMatrix`: the six normalized clipping
planes read off the projection-screen matrix (column-major elements
`me`; `me3 = n41`, `me0 = n11`, and so on). -/
noncomputable def frustumPlanes (m : Mat4) : List Plane3 :=
  [normalizePlane ⟨m.n41 - m.n11, m.n42 - m.n12, m.n43 - m.n13, m.n44 - m.n14⟩,
   normalizePlane ⟨m.n41 + m.n11, m.n42 + m.n12, m.n43 + m.n13, m.n44 + m.n14⟩,
   normalizePlane ⟨m.n41 + m.n21, m.n42 + m.n22, m.n43 + m.n23, m.n44 + m.n24⟩,
   normalizePlane ⟨m.n41 - m.n21, m.n42 - m.n22, m.n43 - m.n23, m.n44 - m.n24⟩,
   normalizePlane ⟨m.n41 - m.n31, m.n42 - m.n32, m.n43 - m.n33, m.n44 - m.n34⟩,
   normalizePlane ⟨m.n41 + m.n31, m.n42 + m.n32, m.n43 + m.n33, m.n44 + m.n34⟩]

/-- `THREE.Frustum.containsPoint`: no plane reports a negative
distance. -/
noncomputable def frustumContains (m : Mat4) (p : V3) : Prop :=
  ∀ pl ∈ frustumPlanes m, 0 ≤ planeDistance pl p

/-- `THREE.Vector3.applyMatrix4`: transform and divide by the resulting
`w` (the source computes `w = 1 / (...)` and multiplies). -/
noncomputable def applyMat4 (m : Mat4) (v : V3) : V3 :=
  ((m.n11 * v.1 + m.n12 * v.2.1 + m.n13 * v.2.2 + m.n14) *
     (1 / (m.n41 * v.1 + m.n42 * v.2.1 + m.n43 * v.2.2 + m.n44)),
   (m.n21 * v.1 + m.n22 * v.2.1 + m.n23 * v.2.2 + m.n24) *
     (1 / (m.n41 * v.1 + m.n42 * v.2.1 + m.n43 * v.2.2 + m.n44)),
   (m.n31 * v.1 + m.n32 * v.2.1 + m.n33 * v.2.2 + m.n34) *
     (1 / (m.n41 * v.1 + m.n42 * v.2.1 + m.n43 * v.2.2 + m.n44)))

/-- `THREE.Vector3.project(camera)`: apply `matrixWorldInverse`, then the
projection matrix (`src/unnamed/part_000` line 880). -/
noncomputable def projectPoint (cam : Camera) (p : V3) : V3 :=
  applyMat4 (projectionMat cam) (applyMat4 (viewMatrix cam) p)

/-- The per-pair relation record of `calculateCameraPersonRelations`
(`src/unnamed/part_000` lines 904-911). -/
structure RelationR where
  isVisible : Prop
  distance : ℝ
  centerOffset : ℝ
  angleScore : ℝ
  qualityScore : ℝ
  shotType : String

/-- The body of `calculateCameraPersonRelations` for one camera/subject
pair (`src/unnamed/part_000` lines 851-911): frustum visibility, camera
to subject distance, projected center offset, facing-angle score, the
weighted composite quality score, and the shot-type label. -/
noncomputable def calculateRelation (cam : Camera) (per : Person) : RelationR :=
  let isVisible := frustumContains (projScreen cam) per.position
  let distance := normV (subV cam.position per.position)
  let personPosInCamera := projectPoint cam per.position
  let centerOffset := Real.sqrt (personPosInCamera.1 ^ 2 + personPosInCamera.2.1 ^ 2)
  let camToPersonDir := jsNormalize (subV per.position cam.position)
  let angleScore := dotV per.direction camToPersonDir * 0.5 + 0.5
  let optimalDistance : ℝ := 5
  let distanceScore := 1.0 - min 1.0 (|distance - optimalDistance| / optimalDistance)
  let centerScore := 1.0 - min 1.0 centerOffset
  let qualityScore := distanceScore * 0.4 + centerScore * 0.3 + angleScore * 0.3
  let shotType := if distance < 3 then "特写" else if distance < 7 then "中景" else "远景"
  ⟨isVisible, distance, centerOffset, angleScore, qualityScore, shotType⟩

end CameraGeometry

section CameraGeometryVerification
open Classical

/-- Closed form of the projection matrix produced by `makePerspective` on the
parameters `updateProjectionMatrix` feeds it (near, far, aspect, tan of half
the vertical fov). -/
theorem perspParams_eq (n f a t : ℝ) (hn : n ≠ 0) (ha : a ≠ 0) (ht : t ≠ 0) :
    perspParams n f a t =
      ⟨1 / (a * t), 0, 0, 0,
       0, 1 / t, 0, 0,
       0, 0, -(f + n) / (f - n), -2 * f * n / (f - n),
       0, 0, -1, 0⟩ := by
  unfold perspParams makePerspective
  field_simp
  repeat' apply And.intro
  all_goals ring

/-- Normalizing a plane (dividing by the positive length of its normal, as
`Frustum.setFromProjectionMatrix` does) does not change the sign of the signed
distance to any point. -/
theorem planeDistance_normalize_nonneg_iff (pl : Plane3) (v : V3)
    (hpos : 0 < pl.nx ^ 2 + pl.ny ^ 2 + pl.nz ^ 2) :
    (0 ≤ planeDistance (normalizePlane pl) v ↔ 0 ≤ planeDistance pl v) := by
  have hs : 0 < Real.sqrt (pl.nx ^ 2 + pl.ny ^ 2 + pl.nz ^ 2) := Real.sqrt_pos.mpr hpos
  have hinv : 0 < 1 / Real.sqrt (pl.nx ^ 2 + pl.ny ^ 2 + pl.nz ^ 2) := by positivity
  have heq : planeDistance (normalizePlane pl) v =
      planeDistance pl v * (1 / Real.sqrt (pl.nx ^ 2 + pl.ny ^ 2 + pl.nz ^ 2)) := by
    unfold planeDistance normalizePlane
    ring
  rw [heq]
  constructor
  · intro h
    nlinarith
  · intro h
    positivity

/-- Frustum containment in terms of the six raw (unnormalized) Gribb-Hartmann
plane distances, provided every plane of the matrix has a nonzero normal. -/
theorem frustumContains_iff_raw (m : Mat4) (p : V3)
    (h0 : 0 < (m.n41 - m.n11) ^ 2 + (m.n42 - m.n12) ^ 2 + (m.n43 - m.n13) ^ 2)
    (h1 : 0 < (m.n41 + m.n11) ^ 2 + (m.n42 + m.n12) ^ 2 + (m.n43 + m.n13) ^ 2)
    (h2 : 0 < (m.n41 + m.n21) ^ 2 + (m.n42 + m.n22) ^ 2 + (m.n43 + m.n23) ^ 2)
    (h3 : 0 < (m.n41 - m.n21) ^ 2 + (m.n42 - m.n22) ^ 2 + (m.n43 - m.n23) ^ 2)
    (h4 : 0 < (m.n41 - m.n31) ^ 2 + (m.n42 - m.n32) ^ 2 + (m.n43 - m.n33) ^ 2)
    (h5 : 0 < (m.n41 + m.n31) ^ 2 + (m.n42 + m.n32) ^ 2 + (m.n43 + m.n33) ^ 2) :
    frustumContains m p ↔
      (0 ≤ planeDistance ⟨m.n41 - m.n11, m.n42 - m.n12, m.n43 - m.n13, m.n44 - m.n14⟩ p ∧
       0 ≤ planeDistance ⟨m.n41 + m.n11, m.n42 + m.n12, m.n43 + m.n13, m.n44 + m.n14⟩ p ∧
       0 ≤ planeDistance ⟨m.n41 + m.n21, m.n42 + m.n22, m.n43 + m.n23, m.n44 + m.n24⟩ p ∧
       0 ≤ planeDistance ⟨m.n41 - m.n21, m.n42 - m.n22, m.n43 - m.n23, m.n44 - m.n24⟩ p ∧
       0 ≤ planeDistance ⟨m.n41 - m.n31, m.n42 - m.n32, m.n43 - m.n33, m.n44 - m.n34⟩ p ∧
       0 ≤ planeDistance ⟨m.n41 + m.n31, m.n42 + m.n32, m.n43 + m.n33, m.n44 + m.n34⟩ p) := by
  unfold frustumContains frustumPlanes
  simp only [List.forall_mem_cons, List.forall_mem_nil, and_true]
  rw [planeDistance_normalize_nonneg_iff _ _ h0, planeDistance_normalize_nonneg_iff _ _ h1,
    planeDistance_normalize_nonneg_iff _ _ h2, planeDistance_normalize_nonneg_iff _ _ h3,
    planeDistance_normalize_nonneg_iff _ _ h4, planeDistance_normalize_nonneg_iff _ _ h5]
  simp

set_option maxHeartbeats 2000000 in
/-- For a perspective projection composed with a rigid view matrix built from an
orthonormal-enough basis (unit right/up/back vectors with back orthogonal to the
other two), frustum containment reduces to six linear conditions on the view
coordinates of the point. -/
theorem frustumContains_persp (x y z e p : V3) (n f a t : ℝ)
    (hx : normSqV x = 1) (hy : normSqV y = 1) (hz : normSqV z = 1)
    (hzx : dotV z x = 0) (hzy : dotV z y = 0)
    (hn : 0 < n) (hnf : n < f) (ha : 0 < a) (ht : 0 < t) :
    frustumContains (matMul (perspParams n f a t) (viewOf x y z e)) p ↔
      (0 ≤ -(dotV z (subV p e)) - 1 / (a * t) * dotV x (subV p e) ∧
       0 ≤ -(dotV z (subV p e)) + 1 / (a * t) * dotV x (subV p e) ∧
       0 ≤ -(dotV z (subV p e)) + 1 / t * dotV y (subV p e) ∧
       0 ≤ -(dotV z (subV p e)) - 1 / t * dotV y (subV p e) ∧
       0 ≤ -(1 + -(f + n) / (f - n)) * dotV z (subV p e) - (-2 * f * n / (f - n)) ∧
       0 ≤ (-(f + n) / (f - n) - 1) * dotV z (subV p e) + (-2 * f * n / (f - n))) := by
  have hM : matMul (perspParams n f a t) (viewOf x y z e) =
      ⟨(1/(a*t)) * x.1, (1/(a*t)) * x.2.1, (1/(a*t)) * x.2.2, -((1/(a*t)) * dotV x e),
       (1/t) * y.1, (1/t) * y.2.1, (1/t) * y.2.2, -((1/t) * dotV y e),
       (-(f+n)/(f-n)) * z.1, (-(f+n)/(f-n)) * z.2.1, (-(f+n)/(f-n)) * z.2.2,
         -((-(f+n)/(f-n)) * dotV z e) + (-2*f*n/(f-n)),
       -z.1, -z.2.1, -z.2.2, dotV z e⟩ := by
    rw [perspParams_eq n f a t hn.ne' ha.ne' ht.ne']
    unfold matMul viewOf
    simp only [Mat4.mk.injEq]
    repeat' apply And.intro
    all_goals ring
  rw [hM]
  simp only [normSqV, dotV] at hx hy hz hzx hzy
  have hfn : (0:ℝ) < f - n := by linarith
  refine (frustumContains_iff_raw _ _ ?_ ?_ ?_ ?_ ?_ ?_).trans ?_
  · dsimp only
    have hsum : (-z.1 - 1 / (a * t) * x.1) ^ 2 + (-z.2.1 - 1 / (a * t) * x.2.1) ^ 2 +
        (-z.2.2 - 1 / (a * t) * x.2.2) ^ 2 = 1 + (1 / (a * t)) ^ 2 := by
      linear_combination hz + (1 / (a * t)) ^ 2 * hx + (2 * (1 / (a * t))) * hzx
    rw [hsum]
    positivity
  · dsimp only
    have hsum : (-z.1 + 1 / (a * t) * x.1) ^ 2 + (-z.2.1 + 1 / (a * t) * x.2.1) ^ 2 +
        (-z.2.2 + 1 / (a * t) * x.2.2) ^ 2 = 1 + (1 / (a * t)) ^ 2 := by
      linear_combination hz + (1 / (a * t)) ^ 2 * hx - (2 * (1 / (a * t))) * hzx
    rw [hsum]
    positivity
  · dsimp only
    have hsum : (-z.1 + 1 / t * y.1) ^ 2 + (-z.2.1 + 1 / t * y.2.1) ^ 2 +
        (-z.2.2 + 1 / t * y.2.2) ^ 2 = 1 + (1 / t) ^ 2 := by
      linear_combination hz + (1 / t) ^ 2 * hy - (2 * (1 / t)) * hzy
    rw [hsum]
    positivity
  · dsimp only
    have hsum : (-z.1 - 1 / t * y.1) ^ 2 + (-z.2.1 - 1 / t * y.2.1) ^ 2 +
        (-z.2.2 - 1 / t * y.2.2) ^ 2 = 1 + (1 / t) ^ 2 := by
      linear_combination hz + (1 / t) ^ 2 * hy + (2 * (1 / t)) * hzy
    rw [hsum]
    positivity
  · dsimp only
    have hsum : (-z.1 - -(f + n) / (f - n) * z.1) ^ 2 + (-z.2.1 - -(f + n) / (f - n) * z.2.1) ^ 2 +
        (-z.2.2 - -(f + n) / (f - n) * z.2.2) ^ 2 = (1 + -(f + n) / (f - n)) ^ 2 := by
      linear_combination (1 + -(f + n) / (f - n)) ^ 2 * hz
    rw [hsum]
    have hval : 1 + -(f + n) / (f - n) < 0 := by
      have h1 : 1 + -(f + n) / (f - n) = -(2 * n) / (f - n) := by field_simp; ring
      rw [h1]
      exact div_neg_of_neg_of_pos (by linarith) hfn
    nlinarith [hval]
  · dsimp only
    have hsum : (-z.1 + -(f + n) / (f - n) * z.1) ^ 2 + (-z.2.1 + -(f + n) / (f - n) * z.2.1) ^ 2 +
        (-z.2.2 + -(f + n) / (f - n) * z.2.2) ^ 2 = ((-(f + n) / (f - n)) - 1) ^ 2 := by
      linear_combination ((-(f + n) / (f - n)) - 1) ^ 2 * hz
    rw [hsum]
    have hval : (-(f + n) / (f - n)) - 1 < 0 := by
      have h1 : -(f + n) / (f - n) < 0 := div_neg_of_neg_of_pos (by linarith) hfn
      linarith
    nlinarith [hval]
  · dsimp only [planeDistance]
    simp only [dotV, subV]
    constructor
    · rintro ⟨h0, h1, h2, h3, h4, h5⟩
      refine ⟨by linarith, by linarith, by linarith, by linarith, by linarith, by linarith⟩
    · rintro ⟨h0, h1, h2, h3, h4, h5⟩
      refine ⟨by linarith, by linarith, by linarith, by linarith, by linarith, by linarith⟩

/-- The basis produced by `lookAt` from a unit, non-vertical camera direction
consists of three unit vectors whose back vector is orthogonal to the right and
up vectors. -/
theorem viewBasis_props (cam : Camera) (hdir : normSqV cam.direction = 1)
    (hvert : cam.direction.1 ^ 2 + cam.direction.2.2 ^ 2 ≠ 0) :
    normSqV (viewBasis cam).1 = 1 ∧ normSqV (viewBasis cam).2.1 = 1 ∧
      normSqV (viewBasis cam).2.2 = 1 ∧
      dotV (viewBasis cam).2.2 (viewBasis cam).1 = 0 ∧
      dotV (viewBasis cam).2.2 (viewBasis cam).2.1 = 0 := by
  obtain ⟨e, d, fv, asp, nr, fr⟩ := cam
  obtain ⟨d1, d2, d3⟩ := d
  obtain ⟨e1, e2, e3⟩ := e
  simp only [normSqV] at hdir
  simp only at hvert
  have h1 : subV (e1, e2, e3) (addV (e1, e2, e3) (d1, d2, d3)) = (-d1, -d2, -d3) := by
    simp only [subV, addV, Prod.mk.injEq]
    refine ⟨by ring, by ring, by ring⟩
  have hz0 : normSqV ((-d1 : ℝ), -d2, -d3) = 1 := by
    simp only [normSqV]
    linear_combination hdir
  have hz2 : jsNormalize ((-d1 : ℝ), -d2, -d3) = (-d1, -d2, -d3) := by
    have hn1 : normV ((-d1 : ℝ), -d2, -d3) = 1 := by
      unfold normV
      rw [hz0, Real.sqrt_one]
    simp [jsNormalize, hn1]
  have hx0 : crossV ((0 : ℝ), 1, 0) (-d1, -d2, -d3) = (-d3, 0, d1) := by
    simp only [crossV, Prod.mk.injEq]
    refine ⟨by ring, by ring, by ring⟩
  have hx0sq : normSqV ((-d3 : ℝ), 0, d1) = d1 ^ 2 + d3 ^ 2 := by
    simp only [normSqV]
    ring
  have hx0pos : 0 < normSqV ((-d3 : ℝ), 0, d1) := by
    rw [hx0sq]
    rcases lt_or_eq_of_le (by positivity : (0:ℝ) ≤ d1 ^ 2 + d3 ^ 2) with h | h
    · exact h
    · exact absurd h.symm hvert
  have hlook : lookAtBasis (e1, e2, e3) (addV (e1, e2, e3) (d1, d2, d3)) (0, 1, 0) =
      (jsNormalize (-d3, 0, d1),
       crossV (-d1, -d2, -d3) (jsNormalize (-d3, 0, d1)),
       (-d1, -d2, -d3)) := by
    unfold lookAtBasis
    rw [h1]
    dsimp only
    have hcond1 : ¬ (normSqV ((-d1 : ℝ), -d2, -d3) = 0) := by
      rw [hz0]
      exact one_ne_zero
    simp only [if_neg hcond1, hz2, hx0, if_neg (ne_of_gt hx0pos)]
  have hvb : viewBasis ⟨(e1, e2, e3), (d1, d2, d3), fv, asp, nr, fr⟩ =
      (jsNormalize (-d3, 0, d1),
       crossV (-d1, -d2, -d3) (jsNormalize (-d3, 0, d1)),
       (-d1, -d2, -d3)) := hlook
  rw [hvb]
  have hspos : (0 : ℝ) < Real.sqrt (d1 ^ 2 + d3 ^ 2) := by
    apply Real.sqrt_pos.mpr
    rw [← hx0sq]
    exact hx0pos
  have hs2 : Real.sqrt (d1 ^ 2 + d3 ^ 2) ^ 2 = d1 ^ 2 + d3 ^ 2 :=
    Real.sq_sqrt (by positivity)
  have hsval : normV ((-d3 : ℝ), 0, d1) = Real.sqrt (d1 ^ 2 + d3 ^ 2) := by
    unfold normV
    rw [hx0sq]
  have hxn : jsNormalize ((-d3 : ℝ), 0, d1) =
      (-d3 / Real.sqrt (d1 ^ 2 + d3 ^ 2), 0 / Real.sqrt (d1 ^ 2 + d3 ^ 2),
       d1 / Real.sqrt (d1 ^ 2 + d3 ^ 2)) := by
    simp only [jsNormalize, hsval, if_neg (ne_of_gt hspos)]
  rw [hxn]
  refine ⟨?_, ?_, ?_, ?_, ?_⟩
  · simp only [normSqV]
    field_simp
    linarith [hs2]
  · simp only [crossV, normSqV]
    field_simp
    nlinarith [hs2, hdir, sq_nonneg (d1 ^ 2 + d3 ^ 2)]
  · simp only [normSqV]
    linear_combination hdir
  · simp only [dotV]
    field_simp
    ring
  · simp only [crossV, dotV]
    field_simp
    ring

/-- The six linear frustum conditions on view coordinates are equivalent to the
geometric description: depth between near and far, horizontal view coordinate
within aspect times tan of half the fov times the depth, vertical view
coordinate within tan of half the fov times the depth. -/
theorem semi_iff_geom (xc yc zc n f a t : ℝ)
    (hn : 0 < n) (hnf : n < f) (ha : 0 < a) (ht : 0 < t) :
    ((0 ≤ -zc - 1 / (a * t) * xc) ∧
     (0 ≤ -zc + 1 / (a * t) * xc) ∧
     (0 ≤ -zc + 1 / t * yc) ∧
     (0 ≤ -zc - 1 / t * yc) ∧
     (0 ≤ -(1 + -(f + n) / (f - n)) * zc - (-2 * f * n / (f - n))) ∧
     (0 ≤ (-(f + n) / (f - n) - 1) * zc + (-2 * f * n / (f - n)))) ↔
    (n ≤ -zc ∧ -zc ≤ f ∧ |xc| ≤ -zc * (a * t) ∧ |yc| ≤ -zc * t) := by
  have hat : (0:ℝ) < a * t := mul_pos ha ht
  have hfn : (0:ℝ) < f - n := by linarith
  have hf : (0:ℝ) < f := lt_trans hn hnf
  have h4eq : -(1 + -(f + n) / (f - n)) * zc - (-2 * f * n / (f - n)) =
      (2 * n / (f - n)) * (zc + f) := by field_simp; ring
  have h5eq : (-(f + n) / (f - n) - 1) * zc + (-2 * f * n / (f - n)) =
      (2 * f / (f - n)) * (-zc - n) := by field_simp; ring
  have hk4 : (0:ℝ) < 2 * n / (f - n) := by positivity
  have hk5 : (0:ℝ) < 2 * f / (f - n) := by positivity
  have hcx : ∀ w : ℝ, (1 / (a * t) * w) * (a * t) = w := fun w => by field_simp
  have hcy : ∀ w : ℝ, (1 / t * w) * t = w := fun w => by field_simp
  have hcx2 : ∀ w : ℝ, 1 / (a * t) * (w * (a * t)) = w := fun w => by field_simp
  have hcy2 : ∀ w : ℝ, 1 / t * (w * t) = w := fun w => by field_simp
  rw [h4eq, h5eq, abs_le, abs_le]
  constructor
  · rintro ⟨h0, h1, h2, h3, h4, h5⟩
    have h4' : 0 ≤ zc + f := by
      by_contra hneg
      push_neg at hneg
      nlinarith
    have h5' : 0 ≤ -zc - n := by
      by_contra hneg
      push_neg at hneg
      nlinarith
    refine ⟨by linarith, by linarith, ⟨?_, ?_⟩, ⟨?_, ?_⟩⟩
    · have hstep : zc * (a * t) ≤ (1 / (a * t) * xc) * (a * t) :=
        mul_le_mul_of_nonneg_right (by linarith) (le_of_lt hat)
      rw [hcx] at hstep
      nlinarith
    · have hstep : (1 / (a * t) * xc) * (a * t) ≤ -zc * (a * t) :=
        mul_le_mul_of_nonneg_right (by linarith) (le_of_lt hat)
      rw [hcx] at hstep
      linarith
    · have hstep : zc * t ≤ (1 / t * yc) * t :=
        mul_le_mul_of_nonneg_right (by linarith) (le_of_lt ht)
      rw [hcy] at hstep
      nlinarith
    · have hstep : (1 / t * yc) * t ≤ -zc * t :=
        mul_le_mul_of_nonneg_right (by linarith) (le_of_lt ht)
      rw [hcy] at hstep
      linarith
  · rintro ⟨h5', h4', ⟨hxl, hxu⟩, ⟨hyl, hyu⟩⟩
    have hX : (0:ℝ) ≤ 1 / (a * t) := by positivity
    have hY : (0:ℝ) ≤ 1 / t := by positivity
    refine ⟨?_, ?_, ?_, ?_, ?_, ?_⟩
    · have hstep : 1 / (a * t) * xc ≤ 1 / (a * t) * (-zc * (a * t)) :=
        mul_le_mul_of_nonneg_left hxu hX
      rw [show -zc * (a * t) = -zc * (a * t) from rfl, hcx2 (-zc)] at hstep
      linarith
    · have hstep : 1 / (a * t) * (-(-zc * (a * t))) ≤ 1 / (a * t) * xc :=
        mul_le_mul_of_nonneg_left hxl hX
      have hneg : 1 / (a * t) * (-(-zc * (a * t))) = zc := by
        have := hcx2 zc
        field_simp
      rw [hneg] at hstep
      linarith
    · have hstep : 1 / t * (-(-zc * t)) ≤ 1 / t * yc :=
        mul_le_mul_of_nonneg_left hyl hY
      have hneg : 1 / t * (-(-zc * t)) = zc := by field_simp
      rw [hneg] at hstep
      linarith
    · have hstep : 1 / t * yc ≤ 1 / t * (-zc * t) :=
        mul_le_mul_of_nonneg_left hyu hY
      rw [hcy2 (-zc)] at hstep
      linarith
    · exact mul_nonneg (le_of_lt hk4) (by linarith)
    · exact mul_nonneg (le_of_lt hk5) (by linarith)

/-- Specification-side description of C3, written from the claim's words: the
subject lies inside the camera frustum built from position, direction, fov,
aspect, near and far — its depth along the viewing direction is between near
and far, and its lateral view coordinates are within the half-width
`aspect * tan(fov/2)` and half-height `tan(fov/2)` cones. -/
noncomputable def insideFrustumGeom (cam : Camera) (p : V3) : Prop :=
  cam.near ≤ -(dotV (viewBasis cam).2.2 (subV p cam.position)) ∧
  -(dotV (viewBasis cam).2.2 (subV p cam.position)) ≤ cam.far ∧
  |dotV (viewBasis cam).1 (subV p cam.position)| ≤
    -(dotV (viewBasis cam).2.2 (subV p cam.position)) *
      (cam.aspect * Real.tan (Real.pi / 180 * (0.5 * cam.fov))) ∧
  |dotV (viewBasis cam).2.1 (subV p cam.position)| ≤
    -(dotV (viewBasis cam).2.2 (subV p cam.position)) *
      Real.tan (Real.pi / 180 * (0.5 * cam.fov))

/-- The claim C3, visibility is frustum containment: for every camera with a
unit, non-vertical direction and sane parameters (0 < near < far, positive
aspect, positive tan of half the fov, i.e. fov strictly between 0 and 180
degrees), the isVisible flag computed by calculateCameraPersonRelations is
true exactly when the subject's position lies inside all six clipping planes
of the camera's frustum built from position, direction, fov, aspect, near and
far. -/
theorem isVisible_iff_insideFrustum (cam : Camera) (per : Person)
    (hdir : normSqV cam.direction = 1)
    (hvert : cam.direction.1 ^ 2 + cam.direction.2.2 ^ 2 ≠ 0)
    (hnear : 0 < cam.near) (hfar : cam.near < cam.far) (haspect : 0 < cam.aspect)
    (htan : 0 < Real.tan (Real.pi / 180 * (0.5 * cam.fov))) :
    (calculateRelation cam per).isVisible ↔ insideFrustumGeom cam per.position := by
  obtain ⟨hbx, hby, hbz, hbzx, hbzy⟩ := viewBasis_props cam hdir hvert
  show frustumContains (projScreen cam) per.position ↔ _
  have hmain := frustumContains_persp (viewBasis cam).1 (viewBasis cam).2.1
    (viewBasis cam).2.2 cam.position per.position cam.near cam.far cam.aspect
    (Real.tan (Real.pi / 180 * (0.5 * cam.fov)))
    hbx hby hbz hbzx hbzy hnear hfar haspect htan
  have hsemi := semi_iff_geom (dotV (viewBasis cam).1 (subV per.position cam.position))
    (dotV (viewBasis cam).2.1 (subV per.position cam.position))
    (dotV (viewBasis cam).2.2 (subV per.position cam.position))
    cam.near cam.far cam.aspect (Real.tan (Real.pi / 180 * (0.5 * cam.fov)))
    hnear hfar haspect htan
  exact hmain.trans hsemi

/-- Witness for C3 at a concrete input: a camera at the origin looking down the
negative z axis with fov 90, aspect 1, near 1, far 10 sees a subject at
(0, 0, -5), and the equivalence certifies it via the geometric side. -/
theorem isVisible_iff_insideFrustum_witness :
    (calculateRelation ⟨(0, 0, 0), (0, 0, -1), 90, 1, 1, 10⟩
      ⟨(0, 0, -5), (0, 0, 1)⟩).isVisible := by
  refine (isVisible_iff_insideFrustum _ _ ?_ ?_ ?_ ?_ ?_ ?_).mpr ?_
  · norm_num [normSqV]
  · norm_num
  · norm_num
  · norm_num
  · norm_num
  · show (0:ℝ) < Real.tan (Real.pi / 180 * (0.5 * 90))
    rw [show Real.pi / 180 * (0.5 * (90:ℝ)) = Real.pi / 4 from by ring,
      Real.tan_pi_div_four]
    norm_num
  · have hvb0 : viewBasis ⟨(0, 0, 0), (0, 0, -1), 90, 1, 1, 10⟩ =
        ((1, 0, 0), (0, 1, 0), (0, 0, 1)) := by
      norm_num [viewBasis, lookAtBasis, subV, addV, crossV, jsNormalize, normSqV,
        normV, Real.sqrt_one]
    unfold insideFrustumGeom
    rw [hvb0]
    dsimp only
    rw [show Real.pi / 180 * (0.5 * (90:ℝ)) = Real.pi / 4 from by ring,
      Real.tan_pi_div_four]
    norm_num [dotV, subV]

end CameraGeometryVerification

section QualityScore
open Classical

/-- The claim C4, composite quality score formula: for every camera/subject
pair the quality score computed by calculateCameraPersonRelations equals
distanceScore * 0.4 + centerScore * 0.3 + angleScore * 0.3, where
distanceScore = 1 - min(1, |distance - 5| / 5) with the camera-to-subject
distance and optimal distance 5, centerScore = 1 - min(1, offset) with
offset the distance of the projected subject position from the frame center
in normalized device coordinates, and angleScore = dot * 0.5 + 0.5 of the
subject's facing direction with the normalized camera-to-subject
direction. -/
theorem qualityScore_formula (cam : Camera) (per : Person) :
    (calculateRelation cam per).qualityScore =
      (1 - min 1 (|normV (subV cam.position per.position) - 5| / 5)) * 0.4 +
      (1 - min 1 (Real.sqrt ((projectPoint cam per.position).1 ^ 2 +
        (projectPoint cam per.position).2.1 ^ 2))) * 0.3 +
      (dotV per.direction (jsNormalize (subV per.position cam.position)) * 0.5 + 0.5) * 0.3 := by
  unfold calculateRelation
  dsimp only
  norm_num

end QualityScore
